import Mathlib

/-!
Shallow embedding of the cantabular examples repository
(`cmd/cantabular-query-simple/main.go` and `cmd/cantabular-query-streamed/main.go`).

Go `int` values are modelled as `Int`; Go slices as `List`; Go panics as
`Except.error`/`Option.none` results threaded explicitly.  Output written to the
CSV writer is modelled as an accumulated `List (List String)` of records.
-/

/-- `Category` from `cantabular-query-simple/main.go`: a category code/label pair. -/
structure Category where
  code : String
  label : String
deriving DecidableEq

/-- `Variable` from `cantabular-query-simple/main.go`: a variable name/label pair. -/
structure Variable where
  name : String
  label : String
deriving DecidableEq

/-- One element of `Table.Dimensions` from `cantabular-query-simple/main.go`. -/
structure Dimension where
  count : Int
  categories : List Category
  «variable» : Variable
deriving DecidableEq

/-- `Table` from `cantabular-query-simple/main.go`. -/
structure Table where
  dimensions : List Dimension
  values : List Int
  error : String
deriving DecidableEq

/-- `Row` from `cantabular-query-simple/main.go`. -/
structure Row where
  categories : List Category
  count : Int
deriving DecidableEq

/-- Go slice indexing `d.Categories[k]` with an `int` index: panics (here `none`)
when `k` is negative or not below the length. -/
def getCat (d : Dimension) (k : Int) : Option Category :=
  if 0 ≤ k then d.categories.get? k.toNat else none

/-- The loop of `Table.populateRow`: `for j, k := range indices` reading
`t.Dimensions[j].Categories[k]`; `none` models an index-out-of-range panic. -/
def traverseCats : List Dimension → List Int → Option (List Category)
  | _, [] => some []
  | [], _ :: _ => none
  | d :: ds, k :: ks =>
    match getCat d k, traverseCats ds ks with
    | some c, some cs => some (c :: cs)
    | _, _ => none

/-- `Table.populateRow` from `cantabular-query-simple/main.go`: fills one `Row`
from the current per-dimension indices and the `i`-th value `v`. -/
def Table.populateRow (t : Table) (idxs : List Int) (v : Int) : Option Row :=
  match traverseCats t.dimensions idxs with
  | some cats => some { categories := cats, count := v }
  | none => none

/-- The inner carry loop of `Table.ForEachRow`, acting on the REVERSED index and
count lists (the Go loop walks `j` from the last position leftwards):
increment the head; if it is still below its count stop, otherwise reset it to
zero and carry into the tail. -/
def stepRev : List Int → List Int → List Int
  | c :: cs, k :: ks => if k + 1 < c then (k + 1) :: ks else 0 :: stepRev cs ks
  | _, _ => []

/-- One odometer step of `Table.ForEachRow` on the (outermost-first) index list. -/
def odometerStep (counts idxs : List Int) : List Int :=
  (stepRev counts.reverse idxs.reverse).reverse

/-- The main loop of `Table.ForEachRow` over the remaining values: emit a row per
value, stepping the odometer after each. -/
def Table.forEachRowAux (t : Table) (counts : List Int) : List Int → List Int → Except String (List Row)
  | _, [] => .ok []
  | idxs, v :: vs =>
    match t.populateRow idxs v with
    | none => .error "index out of range"
    | some r =>
      match t.forEachRowAux counts (odometerStep counts idxs) vs with
      | .ok rs => .ok (r :: rs)
      | .error e => .error e

/-- `Table.ForEachRow` from `cantabular-query-simple/main.go`: panics (`.error`)
if the table carries an error; otherwise iterates over `t.Values`, emitting the
row for each value in mixed-radix odometer order.  The emitted rows are
collected in order (the Go code passes each to a callback). -/
def Table.forEachRow (t : Table) : Except String (List Row) :=
  if t.error ≠ "" then .error t.error
  else t.forEachRowAux (t.dimensions.map (fun d => d.count))
    (List.replicate t.dimensions.length 0) t.values

/-- `Table.Header` from `cantabular-query-simple/main.go`: the variable labels in
dimension order followed by `"count"`. -/
def Table.header (t : Table) : List String :=
  t.dimensions.map (fun d => d.«variable».label) ++ ["count"]

/-- The odometer state of `Table.ForEachRow` after `n` values have been consumed:
all-zero indices at the start, one `odometerStep` per value. -/
def odoIter (counts : List Int) : Nat → List Int
  | 0 => List.replicate counts.length 0
  | n + 1 => odometerStep counts (odoIter counts n)

/-- The sequence of index combinations visited by `Table.ForEachRow` while
consuming `n` values. -/
def visitedIdx (counts : List Int) (n : Nat) : List (List Int) :=
  (List.range n).map (odoIter counts)

-- Scratch check of the concrete round-trip table (claim C2 territory).
def c2Table : Table :=
  { dimensions :=
      [ { count := 2
          categories := [⟨"a0", "a0"⟩, ⟨"a1", "a1"⟩]
          «variable» := ⟨"A", "A"⟩ }
      , { count := 3
          categories := [⟨"b0", "b0"⟩, ⟨"b1", "b1"⟩, ⟨"b2", "b2"⟩]
          «variable» := ⟨"B", "B"⟩ } ]
    values := [10, 11, 12, 13, 14, 15]
    error := "" }

/-- A single binary dimension, for value-count mismatch experiments. -/
def c3Dim : Dimension :=
  { count := 2
    categories := [⟨"x0", "x0"⟩, ⟨"x1", "x1"⟩]
    «variable» := ⟨"X", "X"⟩ }

/-- One value fewer than `product(counts) = 2`. -/
def c3TableFewer : Table :=
  { dimensions := [c3Dim], values := [10], error := "" }

/-- One value more than `product(counts) = 2`. -/
def c3TableMore : Table :=
  { dimensions := [c3Dim], values := [10, 11, 12], error := "" }

/-!
The streaming client (`cantabular-query-streamed/main.go`).  The incoming JSON
document is modelled as a tree whose object members are kept in arrival order;
the pull decoder (`jsonstream`, not under `src/`) is modelled from the spec
(§4.1): entering a composite returns false on `null`, unconsumed members are
skipped, malformed shapes raise a StructuralError (here: `some errMsg`).
Output accumulates the CSV records written so far; a panic is a `some` error
paired with the records already written.
-/

/-- A JSON value; object members are an ordered list of name/value pairs. -/
inductive JValue where
  | null
  | bool (b : Bool)
  | num (n : Int)
  | str (s : String)
  | arr (elems : List JValue)
  | obj (members : List (String × JValue))

/-- Records written to the CSV writer, in order. -/
abbrev CsvRows := List (List String)

/-- Modelled from the spec: Go JSON object member lookup (later duplicates win). -/
def lookupMember (ms : List (String × JValue)) (k : String) : Option JValue :=
  ms.foldl (fun acc p => if p.1 = k then some p.2 else acc) none

/-- Modelled from the spec: decoding a JSON value into a Go `string` field
(absent or `null` leaves the zero value). -/
def decodeStringField : Option JValue → Option String
  | none => some ""
  | some .null => some ""
  | some (.str s) => some s
  | some _ => none

/-- Modelled from the spec: decoding a JSON value into a Go `int` field
(absent or `null` leaves the zero value). -/
def decodeIntField : Option JValue → Option Int
  | none => some 0
  | some .null => some 0
  | some (.num n) => some n
  | some _ => none

/-- Modelled from the spec: bulk decode of one category object (`jsonstream.Decode`
and the `table` package are not under `src/`; shape from §6). -/
def decodeCategory : JValue → Option Category
  | .null => some ⟨"", ""⟩
  | .obj ms =>
    match decodeStringField (lookupMember ms "code"),
          decodeStringField (lookupMember ms "label") with
    | some c, some l => some ⟨c, l⟩
    | _, _ => none
  | _ => none

/-- Modelled from the spec: bulk decode of one variable object (shape from §6). -/
def decodeVariable : JValue → Option Variable
  | .null => some ⟨"", ""⟩
  | .obj ms =>
    match decodeStringField (lookupMember ms "name"),
          decodeStringField (lookupMember ms "label") with
    | some n, some l => some ⟨n, l⟩
    | _, _ => none
  | _ => none

/-- Modelled from the spec: bulk decode of one dimension object (shape from §6). -/
def decodeDim : JValue → Option Dimension
  | .null => some ⟨0, [], ⟨"", ""⟩⟩
  | .obj ms =>
    match decodeIntField (lookupMember ms "count"),
          (match lookupMember ms "categories" with
           | none => some []
           | some .null => some []
           | some (.arr xs) => xs.mapM decodeCategory
           | some _ => none),
          (match lookupMember ms "variable" with
           | none => some ⟨"", ""⟩
           | some w => decodeVariable w) with
    | some c, some cats, some w => some ⟨c, cats, w⟩
    | _, _, _ => none
  | _ => none

/-- Modelled from the spec: `dec.Decode(&dims)` for the `dimensions` member —
the missing `table.Dimensions` is a slice of dimensions; JSON `null` sets the
slice to `nil` (`none`); a decode failure is a panic (outer `none`). -/
def decodeDims : JValue → Option (Option (List Dimension))
  | .null => some none
  | .arr xs => (xs.mapM decodeDim).map some
  | _ => none

/-- Modelled from the spec: `dec.Decode(&graphqlErrs)` in `decodeErrorsPanicIfAny` —
bulk decode of the `errors` array into the message list. -/
def decodeGraphqlErrs : JValue → Option (List String)
  | .null => some []
  | .arr xs =>
    xs.mapM (fun x =>
      match x with
      | .null => some ""
      | .obj ms => decodeStringField (lookupMember ms "message")
      | _ => none)
  | _ => none

/-- The `strings.Builder` loop of `decodeErrorsPanicIfAny`: join the messages,
inserting a newline only when the builder is already non-empty. -/
def joinMsgs (msgs : List String) : String :=
  msgs.foldl (fun sb m => if sb.length > 0 then sb ++ "\n" ++ m else sb ++ m) ""

/-- `decodeErrorsPanicIfAny` from `cantabular-query-streamed/main.go`: decode the
`errors` member and panic (`some`) with the joined messages when non-empty. -/
def decodeErrorsPanicIfAny (v : JValue) : Option String :=
  match decodeGraphqlErrs v with
  | none => some "error decoding errors"
  | some msgs =>
    if (joinMsgs msgs).length > 0 then some (joinMsgs msgs) else none

/-- Modelled from the spec: the `table` package row iterator (§4.2) — the labels
`ti.CategoryAtColumn(i).Label` for the current indices; `none` models the panic
on an out-of-range category index. -/
def rowLabels (dims : List Dimension) (idxs : List Int) : Option (List String) :=
  (traverseCats dims idxs).map (fun cs => cs.map (fun c => c.label))

/-- Modelled from the spec: `dec.DecodeNumber()` — panics unless the element is a
number; its `String()` form is the decimal rendering. -/
def decodeNumber : JValue → Option Int
  | .num n => some n
  | _ => none

/-- The data-row loop of `decodeValues`: one CSV record per element of the
`values` array, advancing the (spec-modelled) iterator after each. -/
def valuesLoop (dims : List Dimension) : List Int → List JValue → CsvRows × Option String
  | _, [] => ([], none)
  | idxs, v :: vs =>
    match rowLabels dims idxs with
    | none => ([], some "category index out of range")
    | some labels =>
      match decodeNumber v with
      | none => ([], some "number expected")
      | some n =>
        let p := valuesLoop dims (odometerStep (dims.map (fun d => d.count)) idxs) vs
        ((labels ++ [toString n]) :: p.1, p.2)

/-- `decodeValues` from `cantabular-query-streamed/main.go`: write the header
(variable labels then `"count"`), then one record per value. -/
def decodeValuesM (dims : List Dimension) (vs : List JValue) : CsvRows × Option String :=
  let p := valuesLoop dims (List.replicate dims.length 0) vs
  ((dims.map (fun d => d.«variable».label) ++ ["count"]) :: p.1, p.2)

/-- The `error` member of the table object: `dec.DecodeString()` returns `nil`
on JSON null (continue) and the string otherwise, which `decodeTableFields`
turns into the `Table blocked` panic; a non-string is a structural panic
(modelled from the spec).  `some` is the panic message, `none` continues. -/
def errorMemberOutcome : JValue → Option String
  | .null => none
  | .str s => some ("Table blocked: " ++ s)
  | _ => some "string or null expected"

/-- The `values` member: `StartArrayComposite` returns false on null (skip);
an array yields its elements; anything else is a structural panic (modelled
from the spec). -/
def valuesMemberArr : JValue → Option (Option (List JValue))
  | .null => some none
  | .arr vs => some (some vs)
  | _ => none

/-- `decodeTableFields` from `cantabular-query-streamed/main.go`: dispatch on
member names inside the `table` object, carrying the decoded dimensions
(`none` = Go `nil`); unrecognized members are skipped. -/
def processTable : Option (List Dimension) → List (String × JValue) → CsvRows × Option String
  | _, [] => ([], none)
  | dims, (n, v) :: rest =>
    if n = "dimensions" then
      match decodeDims v with
      | some ds => processTable ds rest
      | none => ([], some "error decoding dimensions")
    else if n = "error" then
      match errorMemberOutcome v with
      | some e => ([], some e)
      | none => processTable dims rest
    else if n = "values" then
      match dims with
      | none => ([], some "values received before dimensions")
      | some ds =>
        match valuesMemberArr v with
        | none => ([], some "array or null expected")
        | some none => processTable dims rest
        | some (some vs) =>
          let p := decodeValuesM ds vs
          match p.2 with
          | some e => (p.1, some e)
          | none =>
            let q := processTable dims rest
            (p.1 ++ q.1, q.2)
    else processTable dims rest

/-- Whether a JSON value is the literal `null`. -/
def isNull : JValue → Bool
  | .null => true
  | _ => false

/-- A table-object prefix that neither writes output nor panics, tracking the
dimensions state: `dimensions` members must decode, a `values` member is
allowed only when it is `null` AND dimensions have already been decoded to a
non-nil slice (otherwise the code panics), `error` members are excluded, and
members with other names are skipped. -/
def cleanPre : Option (List Dimension) → List (String × JValue) → Bool
  | _, [] => true
  | dims, (n, v) :: rest =>
    if n = "dimensions" then
      match decodeDims v with
      | some ds => cleanPre ds rest
      | none => false
    else if n = "error" then false
    else if n = "values" then dims.isSome && isNull v && cleanPre dims rest
    else cleanPre dims rest

/-- `decodeDataFields` from `cantabular-query-streamed/main.go`: requires the
first member of `data` to be `dataset` and the first member of the dataset
object to be `table` (`mustMatchName`); a `null` table is skipped; remaining
members are skipped by `EndComposite`. -/
def decodeDataFields : List (String × JValue) → CsvRows × Option String
  | [] => ([], some "name expected")
  | (n, v) :: _ =>
    if n ≠ "dataset" then ([], some ("Expected \"dataset\" but got \"" ++ n ++ "\""))
    else
      match v with
      | .null => ([], some "dataset object expected but \"null\" found")
      | .obj dsMembers =>
        (match dsMembers with
         | [] => ([], some "name expected")
         | (n2, v2) :: _ =>
           if n2 ≠ "table" then ([], some ("Expected \"table\" but got \"" ++ n2 ++ "\""))
           else
             match v2 with
             | .null => ([], none)
             | .obj tMembers => processTable none tMembers
             | _ => ([], some "object or null expected"))
      | _ => ([], some "object or null expected")

/-- The top-level member loop of `graphqlJSONToCSV`: `data` members are decoded
(a `null` data is skipped), `errors` members may panic, others are skipped. -/
def processTop : List (String × JValue) → CsvRows × Option String
  | [] => ([], none)
  | (n, v) :: rest =>
    if n = "data" then
      match v with
      | .null => processTop rest
      | .obj dMembers =>
        let p := decodeDataFields dMembers
        match p.2 with
        | some e => (p.1, some e)
        | none =>
          let q := processTop rest
          (p.1 ++ q.1, q.2)
      | _ => ([], some "object or null expected")
    else if n = "errors" then
      match decodeErrorsPanicIfAny v with
      | some e => ([], some e)
      | none => processTop rest
    else processTop rest

/-- `graphqlJSONToCSV` from `cantabular-query-streamed/main.go`: the response
must be a JSON object (a `null` panics with the fixed message). -/
def graphqlJSONToCSVModel : JValue → CsvRows × Option String
  | .obj ms => processTop ms
  | .null => ([], some "No JSON object found in response")
  | _ => ([], some "object or null expected")

/-!
Mixed-radix arithmetic, used to characterise the odometer of `ForEachRow`.
`digitsRev` works little-endian over the REVERSED count list, matching the
carry loop which starts at the innermost (last) dimension.
-/

/-- Little-endian mixed-radix digits of `n` for the radix list `cs`. -/
def digitsRev : List Nat → Nat → List Nat
  | [], _ => []
  | c :: cs, n => n % c :: digitsRev cs (n / c)

/-- The carry loop of the odometer on `Nat` digits (mirror of `stepRev`). -/
def stepRevN : List Nat → List Nat → List Nat
  | c :: cs, k :: ks => if k + 1 < c then (k + 1) :: ks else 0 :: stepRevN cs ks
  | _, _ => []

/-- Little-endian mixed-radix value of a digit list. -/
def valRev : List Nat → List Nat → Nat
  | c :: cs, d :: ds => d + c * valRev cs ds
  | _, _ => 0

/-- Big-endian mixed-radix digits (outermost dimension first): the odometer
index combination reached after `n` cells. -/
def bigDigits (cs : List Nat) (n : Nat) : List Nat :=
  (digitsRev cs.reverse n).reverse

/-- Big-endian form of the carry step, on `Nat` digits. -/
def stepBigN (cs ks : List Nat) : List Nat :=
  (stepRevN cs.reverse ks.reverse).reverse

/-- The `Nat` odometer state after `n` steps. -/
def odoIterN (cs : List Nat) : Nat → List Nat
  | 0 => List.replicate cs.length 0
  | n + 1 => stepBigN cs (odoIterN cs n)

theorem digitsRev_zero (cs : List Nat) : digitsRev cs 0 = List.replicate cs.length 0 := by
  induction cs with
  | nil => rfl
  | cons c cs ih => simp [digitsRev, ih, List.replicate]

theorem digitsRev_length (cs : List Nat) : ∀ n, (digitsRev cs n).length = cs.length := by
  induction cs with
  | nil => intro n; rfl
  | cons c cs ih => intro n; simp [digitsRev, ih]

theorem stepRevN_digitsRev (cs : List Nat) :
    (∀ c ∈ cs, 1 ≤ c) → ∀ n, stepRevN cs (digitsRev cs n) = digitsRev cs (n + 1) := by
  induction cs with
  | nil => intro _ _; rfl
  | cons c cs ih =>
    intro h n
    have hc : 0 < c := h c (List.mem_cons_self c cs)
    have hcs : ∀ x ∈ cs, 1 ≤ x := fun x hx => h x (List.mem_cons_of_mem c hx)
    have hdm : c * (n / c) + n % c = n := Nat.div_add_mod n c
    have hr : n % c < c := Nat.mod_lt n hc
    by_cases hlt : n % c + 1 < c
    · have h1 : n + 1 = (n % c + 1) + c * (n / c) := by omega
      have hmod : (n + 1) % c = n % c + 1 := by
        rw [h1, Nat.add_mul_mod_self_left, Nat.mod_eq_of_lt hlt]
      have hdiv : (n + 1) / c = n / c := by
        rw [h1, Nat.add_mul_div_left _ _ hc, Nat.div_eq_of_lt hlt, Nat.zero_add]
      simp [digitsRev, stepRevN, hlt, hmod, hdiv]
    · have hexp : c * (n / c + 1) = c * (n / c) + c := by ring
      have h1 : n + 1 = 0 + c * (n / c + 1) := by omega
      have hmod : (n + 1) % c = 0 := by
        rw [h1, Nat.add_mul_mod_self_left, Nat.zero_mod]
      have hdiv : (n + 1) / c = n / c + 1 := by
        rw [h1, Nat.add_mul_div_left _ _ hc, Nat.zero_div, Nat.zero_add]
      simp [digitsRev, stepRevN, hlt, hmod, hdiv, ih hcs (n / c)]

theorem digitsRev_valid (cs : List Nat) :
    (∀ c ∈ cs, 1 ≤ c) → ∀ n, List.Forall₂ (fun d c => d < c) (digitsRev cs n) cs := by
  induction cs with
  | nil => intro _ _; exact List.Forall₂.nil
  | cons c cs ih =>
    intro h n
    have hc : 0 < c := h c (List.mem_cons_self c cs)
    have hcs : ∀ x ∈ cs, 1 ≤ x := fun x hx => h x (List.mem_cons_of_mem c hx)
    exact List.Forall₂.cons (Nat.mod_lt n hc) (ih hcs (n / c))

theorem valRev_digitsRev_of_lt (cs : List Nat) :
    (∀ c ∈ cs, 1 ≤ c) → ∀ n, n < cs.prod → valRev cs (digitsRev cs n) = n := by
  induction cs with
  | nil =>
    intro _ n hn
    simp only [List.prod_nil] at hn
    simp [digitsRev, valRev]
    omega
  | cons c cs ih =>
    intro h n hn
    have hc : 0 < c := h c (List.mem_cons_self c cs)
    have hcs : ∀ x ∈ cs, 1 ≤ x := fun x hx => h x (List.mem_cons_of_mem c hx)
    rw [List.prod_cons] at hn
    have hdiv : n / c < cs.prod := by
      rw [Nat.div_lt_iff_lt_mul hc, Nat.mul_comm]
      omega
    simp [digitsRev, valRev, ih hcs (n / c) hdiv, Nat.mod_add_div]

theorem digitsRev_valRev (cs ds : List Nat)
    (h : List.Forall₂ (fun d c => d < c) ds cs) :
    digitsRev cs (valRev cs ds) = ds := by
  induction h with
  | nil => rfl
  | @cons d c ds cs hdc htl ih =>
    have hc : 0 < c := Nat.lt_of_le_of_lt (Nat.zero_le d) hdc
    have hmod : (d + c * valRev cs ds) % c = d := by
      rw [Nat.add_mul_mod_self_left, Nat.mod_eq_of_lt hdc]
    have hdiv : (d + c * valRev cs ds) / c = valRev cs ds := by
      rw [Nat.add_mul_div_left _ _ hc, Nat.div_eq_of_lt hdc, Nat.zero_add]
    simp [digitsRev, valRev, hmod, hdiv, ih]

theorem valRev_lt (cs ds : List Nat)
    (h : List.Forall₂ (fun d c => d < c) ds cs) :
    valRev cs ds < cs.prod := by
  induction h with
  | nil => simp [valRev]
  | @cons d c ds cs hdc htl ih =>
    rw [List.prod_cons]
    have h1 : c * (valRev cs ds + 1) = c * valRev cs ds + c := by ring
    have h2 : c * (valRev cs ds + 1) ≤ c * cs.prod := Nat.mul_le_mul_left c ih
    simp only [valRev]
    omega

theorem digitsRev_prod (cs : List Nat) :
    (∀ c ∈ cs, 1 ≤ c) → digitsRev cs cs.prod = List.replicate cs.length 0 := by
  induction cs with
  | nil => intro _; rfl
  | cons c cs ih =>
    intro h
    have hc : 0 < c := h c (List.mem_cons_self c cs)
    have hcs : ∀ x ∈ cs, 1 ≤ x := fun x hx => h x (List.mem_cons_of_mem c hx)
    have hmod : (c * cs.prod) % c = 0 := Nat.mul_mod_right c cs.prod
    have hdiv : (c * cs.prod) / c = cs.prod := Nat.mul_div_cancel_left cs.prod hc
    simp [digitsRev, List.prod_cons, hmod, hdiv, ih hcs, List.replicate]

/-! Bridge between the Go `Int` odometer and the `Nat` mixed-radix digits. -/

theorem stepRev_cast (l₁ : List Nat) :
    ∀ l₂ : List Nat,
      stepRev (l₁.map (fun n : Nat => (n : Int))) (l₂.map (fun n : Nat => (n : Int)))
        = (stepRevN l₁ l₂).map (fun n : Nat => (n : Int)) := by
  induction l₁ with
  | nil => intro l₂; cases l₂ <;> rfl
  | cons c cs ih =>
    intro l₂
    cases l₂ with
    | nil => rfl
    | cons k ks =>
      simp only [List.map_cons, stepRev, stepRevN]
      by_cases hlt : k + 1 < c
      · have hlt' : (k : Int) + 1 < (c : Int) := by exact_mod_cast hlt
        simp [hlt, hlt']
      · have hlt' : ¬((k : Int) + 1 < (c : Int)) := by exact_mod_cast hlt
        simp [hlt, hlt', ih ks]

theorem odometerStep_cast (cs ks : List Nat) :
    odometerStep (cs.map (fun n : Nat => (n : Int))) (ks.map (fun n : Nat => (n : Int)))
      = ((stepRevN cs.reverse ks.reverse).reverse).map (fun n : Nat => (n : Int)) := by
  simp only [odometerStep, ← List.map_reverse, stepRev_cast]

theorem odoIterN_eq_bigDigits (cs : List Nat) (h : ∀ c ∈ cs, 1 ≤ c) :
    ∀ n, odoIterN cs n = bigDigits cs n := by
  intro n
  induction n with
  | zero =>
    simp [odoIterN, bigDigits, digitsRev_zero, List.reverse_replicate, List.length_reverse]
  | succ n ih =>
    have hrev : ∀ c ∈ cs.reverse, 1 ≤ c := fun c hc => h c (List.mem_reverse.mp hc)
    simp [odoIterN, ih, stepBigN, bigDigits, List.reverse_reverse,
      stepRevN_digitsRev cs.reverse hrev n]

theorem odoIter_cast (cs : List Nat) :
    ∀ n, odoIter (cs.map (fun n : Nat => (n : Int))) n
      = (odoIterN cs n).map (fun n : Nat => (n : Int)) := by
  intro n
  induction n with
  | zero => simp [odoIter, odoIterN, List.map_replicate]
  | succ n ih => simp [odoIter, odoIterN, ih, odometerStep_cast, stepBigN]

theorem odoIter_eq_bigDigits (cs : List Nat) (h : ∀ c ∈ cs, 1 ≤ c) (n : Nat) :
    odoIter (cs.map (fun n : Nat => (n : Int))) n
      = (bigDigits cs n).map (fun n : Nat => (n : Int)) := by
  rw [odoIter_cast, odoIterN_eq_bigDigits cs h]

theorem bigDigits_valid (cs : List Nat) (h : ∀ c ∈ cs, 1 ≤ c) (n : Nat) :
    List.Forall₂ (fun d c => d < c) (bigDigits cs n) cs := by
  have h1 := digitsRev_valid cs.reverse (fun c hc => h c (List.mem_reverse.mp hc)) n
  have h2 := List.forall₂_reverse_iff.mpr h1
  rwa [List.reverse_reverse] at h2

theorem bigDigits_inj (cs : List Nat) (h : ∀ c ∈ cs, 1 ≤ c) (n m : Nat)
    (hn : n < cs.prod) (hm : m < cs.prod) (heq : bigDigits cs n = bigDigits cs m) :
    n = m := by
  have hrev : ∀ c ∈ cs.reverse, 1 ≤ c := fun c hc => h c (List.mem_reverse.mp hc)
  have heq' : digitsRev cs.reverse n = digitsRev cs.reverse m := by
    have := congrArg List.reverse heq
    simpa [bigDigits, List.reverse_reverse] using this
  have hn' : n < cs.reverse.prod := by rwa [List.prod_reverse]
  have hm' : m < cs.reverse.prod := by rwa [List.prod_reverse]
  calc n = valRev cs.reverse (digitsRev cs.reverse n) :=
        (valRev_digitsRev_of_lt cs.reverse hrev n hn').symm
    _ = valRev cs.reverse (digitsRev cs.reverse m) := by rw [heq']
    _ = m := valRev_digitsRev_of_lt cs.reverse hrev m hm'

theorem bigDigits_surj (cs : List Nat) (v : List Nat)
    (hv : List.Forall₂ (fun d c => d < c) v cs) :
    ∃ n, n < cs.prod ∧ bigDigits cs n = v := by
  have hvrev : List.Forall₂ (fun d c => d < c) v.reverse cs.reverse :=
    List.forall₂_reverse_iff.mpr hv
  refine ⟨valRev cs.reverse v.reverse, ?_, ?_⟩
  · have := valRev_lt cs.reverse v.reverse hvrev
    rwa [List.prod_reverse] at this
  · simp [bigDigits, digitsRev_valRev cs.reverse v.reverse hvrev, List.reverse_reverse]

theorem castProd (cs : List Nat) :
    (cs.map (fun n : Nat => (n : Int))).prod = (cs.prod : Int) := by
  induction cs with
  | nil => rfl
  | cons c cs ih => rw [List.map_cons, List.prod_cons, List.prod_cons, ih, Nat.cast_mul]

theorem combo_extract (cs : List Nat) :
    ∀ v : List Int,
      List.Forall₂ (fun (c k : Int) => 0 ≤ k ∧ k < c) (cs.map (fun n : Nat => (n : Int))) v →
      v = (v.map Int.toNat).map (fun n : Nat => (n : Int))
        ∧ List.Forall₂ (fun d c => d < c) (v.map Int.toNat) cs := by
  induction cs with
  | nil =>
    intro v h
    cases h
    exact ⟨rfl, List.Forall₂.nil⟩
  | cons c cs ih =>
    intro v h
    rw [List.map_cons] at h
    cases h with
    | cons hck htl =>
      obtain ⟨hb0, hbc⟩ := hck
      obtain ⟨hrest, hvalid⟩ := ih _ htl
      constructor
      · rw [List.map_cons, List.map_cons, Int.toNat_of_nonneg hb0, ← hrest]
      · rw [List.map_cons]
        refine List.Forall₂.cons ?_ hvalid
        omega

/-- C1: for every table with at least one dimension, all counts positive and
equal to the category-list lengths, consuming exactly `product(counts)` values
makes the odometer of `ForEachRow` visit the index combinations in mixed-radix
order (`bigDigits`), without duplicates, and a combination is visited iff it is
in range in every dimension — i.e. every combination exactly once. -/
theorem C1_row_iterator_visits_every_combination_once (t : Table)
    (hne : t.dimensions ≠ [])
    (hwf : ∀ d ∈ t.dimensions, 0 < d.count ∧ d.count = (d.categories.length : Int)) :
    visitedIdx (t.dimensions.map (fun d : Dimension => d.count))
        ((t.dimensions.map (fun d : Dimension => d.count)).prod.toNat)
      = (List.range ((t.dimensions.map (fun d : Dimension => d.count)).prod.toNat)).map
          (fun n => (bigDigits (t.dimensions.map (fun d : Dimension => d.categories.length)) n).map
            (fun k : Nat => (k : Int)))
    ∧ (visitedIdx (t.dimensions.map (fun d : Dimension => d.count))
        ((t.dimensions.map (fun d : Dimension => d.count)).prod.toNat)).Nodup
    ∧ (∀ v : List Int,
        v ∈ visitedIdx (t.dimensions.map (fun d : Dimension => d.count))
            ((t.dimensions.map (fun d : Dimension => d.count)).prod.toNat)
          ↔ List.Forall₂ (fun (c k : Int) => 0 ≤ k ∧ k < c)
              (t.dimensions.map (fun d : Dimension => d.count)) v) := by
  set cs := t.dimensions.map (fun d => d.categories.length) with hcs
  have hcast : t.dimensions.map (fun d => d.count) = cs.map (fun n : Nat => (n : Int)) := by
    rw [hcs, List.map_map]
    exact List.map_congr_left (fun d hd => (hwf d hd).2)
  have hpos : ∀ c ∈ cs, 1 ≤ c := by
    intro c hc
    rw [hcs] at hc
    obtain ⟨d, hd, rfl⟩ := List.mem_map.mp hc
    have h1 := (hwf d hd).1
    rw [(hwf d hd).2] at h1
    exact_mod_cast h1
  have hP : (t.dimensions.map (fun d : Dimension => d.count)).prod.toNat = cs.prod := by
    rw [hcast, castProd, Int.toNat_natCast]
  rw [hP, hcast]
  simp only [visitedIdx]
  have key : (List.range cs.prod).map (odoIter (cs.map (fun n : Nat => (n : Int))))
      = (List.range cs.prod).map
          (fun n => (bigDigits cs n).map (fun k : Nat => (k : Int))) :=
    List.map_congr_left (fun n _ => odoIter_eq_bigDigits cs hpos n)
  refine ⟨key, ?_, ?_⟩
  · rw [key]
    refine List.Nodup.map_on ?_ (List.nodup_range cs.prod)
    intro x hx y hy hxy
    have hb : bigDigits cs x = bigDigits cs y :=
      List.map_injective_iff.mpr Nat.cast_injective hxy
    exact bigDigits_inj cs hpos x y (List.mem_range.mp hx) (List.mem_range.mp hy) hb
  · intro v
    rw [key]
    constructor
    · intro hv
      obtain ⟨n, hn, rfl⟩ := List.mem_map.mp hv
      have hvalid := bigDigits_valid cs hpos n
      have h2 : List.Forall₂ (fun c d => d < c) cs (bigDigits cs n) := hvalid.flip
      have h3 : List.Forall₂
          (fun (c d : Nat) => 0 ≤ (d : Int) ∧ (d : Int) < (c : Int)) cs (bigDigits cs n) :=
        h2.imp (fun c d hdc => ⟨Int.natCast_nonneg d, by exact_mod_cast hdc⟩)
      exact List.forall₂_map_left_iff.mpr (List.forall₂_map_right_iff.mpr h3)
    · intro hv
      obtain ⟨hveq, hvalid⟩ := combo_extract cs v hv
      obtain ⟨n, hnP, hbig⟩ := bigDigits_surj cs (v.map Int.toNat) hvalid
      refine List.mem_map.mpr ⟨n, List.mem_range.mpr hnP, ?_⟩
      rw [hbig, ← hveq]

/-! In-bounds invariant of the odometer indices during `ForEachRow`. -/

theorem stepRev_preserves (cs : List Int) :
    ∀ ks : List Int, (∀ c ∈ cs, 1 ≤ c) →
      List.Forall₂ (fun (c k : Int) => 0 ≤ k ∧ k < c) cs ks →
      List.Forall₂ (fun (c k : Int) => 0 ≤ k ∧ k < c) cs (stepRev cs ks) := by
  induction cs with
  | nil =>
    intro ks _ h
    cases h
    exact List.Forall₂.nil
  | cons c cs ih =>
    intro ks hc h
    cases ks with
    | nil => cases h
    | cons k ks =>
      cases h with
      | cons hk htl =>
        have hc1 : 1 ≤ c := hc c (List.mem_cons_self c cs)
        have hcs : ∀ x ∈ cs, 1 ≤ x := fun x hx => hc x (List.mem_cons_of_mem c hx)
        by_cases hlt : k + 1 < c
        · simp only [stepRev, if_pos hlt]
          exact List.Forall₂.cons ⟨by omega, hlt⟩ htl
        · simp only [stepRev, if_neg hlt]
          exact List.Forall₂.cons ⟨le_refl 0, by omega⟩ (ih _ hcs htl)

theorem odometerStep_preserves (counts idxs : List Int)
    (hc : ∀ c ∈ counts, 1 ≤ c)
    (h : List.Forall₂ (fun (c k : Int) => 0 ≤ k ∧ k < c) counts idxs) :
    List.Forall₂ (fun (c k : Int) => 0 ≤ k ∧ k < c) counts (odometerStep counts idxs) := by
  have h1 := List.forall₂_reverse_iff.mpr h
  have h2 := stepRev_preserves counts.reverse idxs.reverse
    (fun c hc2 => hc c (List.mem_reverse.mp hc2)) h1
  have h3 := List.forall₂_reverse_iff.mpr h2
  rw [List.reverse_reverse] at h3
  exact h3

theorem initial_inRange (cs : List Int) (h : ∀ c ∈ cs, 1 ≤ c) :
    List.Forall₂ (fun (c k : Int) => 0 ≤ k ∧ k < c) cs (List.replicate cs.length 0) := by
  induction cs with
  | nil => exact List.Forall₂.nil
  | cons c cs ih =>
    have hc1 : 1 ≤ c := h c (List.mem_cons_self c cs)
    have hcs : ∀ x ∈ cs, 1 ≤ x := fun x hx => h x (List.mem_cons_of_mem c hx)
    simp only [List.length_cons, List.replicate]
    exact List.Forall₂.cons ⟨le_refl 0, by omega⟩ (ih hcs)

theorem traverseCats_ok :
    ∀ (ds : List Dimension) (ks : List Int),
      List.Forall₂ (fun (c k : Int) => 0 ≤ k ∧ k < c)
        (ds.map (fun d : Dimension => d.count)) ks →
      (∀ d ∈ ds, d.count = (d.categories.length : Int)) →
      ∃ cats, traverseCats ds ks = some cats := by
  intro ds
  induction ds with
  | nil =>
    intro ks h _
    cases h
    exact ⟨[], rfl⟩
  | cons d ds ih =>
    intro ks h hlen
    rw [List.map_cons] at h
    cases ks with
    | nil => cases h
    | cons k ks =>
      cases h with
      | cons hk htl =>
        obtain ⟨hk0, hkc⟩ := hk
        have hdl : d.count = (d.categories.length : Int) := hlen d (List.mem_cons_self d ds)
        have hbound : k.toNat < d.categories.length := by omega
        obtain ⟨cats, hcats⟩ := ih ks htl (fun x hx => hlen x (List.mem_cons_of_mem d hx))
        have hget : d.categories[k.toNat]? = some (d.categories.get ⟨k.toNat, hbound⟩) :=
          List.getElem?_eq_getElem hbound
        refine ⟨d.categories.get ⟨k.toNat, hbound⟩ :: cats, ?_⟩
        simp [traverseCats, getCat, hk0, hget, hcats]

theorem forEachRowAux_ok (t : Table)
    (hlen : ∀ d ∈ t.dimensions, d.count = (d.categories.length : Int))
    (hc : ∀ c ∈ t.dimensions.map (fun d : Dimension => d.count), 1 ≤ c) :
    ∀ (vs idxs : List Int),
      List.Forall₂ (fun (c k : Int) => 0 ≤ k ∧ k < c)
        (t.dimensions.map (fun d : Dimension => d.count)) idxs →
      ∃ rs, t.forEachRowAux (t.dimensions.map (fun d : Dimension => d.count)) idxs vs = .ok rs
        ∧ rs.length = vs.length := by
  intro vs
  induction vs with
  | nil => intro idxs _; exact ⟨[], rfl, rfl⟩
  | cons v vs ih =>
    intro idxs hinv
    obtain ⟨cats, hcats⟩ := traverseCats_ok t.dimensions idxs hinv hlen
    have hpr : t.populateRow idxs v = some { categories := cats, count := v } := by
      simp [Table.populateRow, hcats]
    obtain ⟨rs, hrs, hlenr⟩ :=
      ih (odometerStep (t.dimensions.map (fun d : Dimension => d.count)) idxs)
        (odometerStep_preserves _ idxs hc hinv)
    refine ⟨{ categories := cats, count := v } :: rs, ?_, ?_⟩
    · simp [Table.forEachRowAux, hpr, hrs]
    · simp [hlenr]

/-- A well-formed table (`error` empty, `count == len(categories) ≥ 1`) iterates
without panic and emits exactly one row per value. -/
theorem forEachRow_ok_of_wf (t : Table)
    (herr : t.error = "")
    (hlen : ∀ d ∈ t.dimensions, d.count = (d.categories.length : Int))
    (hge : ∀ d ∈ t.dimensions, 1 ≤ d.count) :
    ∃ rs, t.forEachRow = .ok rs ∧ rs.length = t.values.length := by
  have hif : t.forEachRow
      = t.forEachRowAux (t.dimensions.map (fun d : Dimension => d.count))
          (List.replicate t.dimensions.length 0) t.values := by
    simp [Table.forEachRow, herr]
  have hc : ∀ c ∈ t.dimensions.map (fun d : Dimension => d.count), 1 ≤ c := by
    intro c hcm
    obtain ⟨d, hd, rfl⟩ := List.mem_map.mp hcm
    exact hge d hd
  have hinit := initial_inRange (t.dimensions.map (fun d : Dimension => d.count)) hc
  rw [List.length_map] at hinit
  obtain ⟨rs, hrs, hlenr⟩ :=
    forEachRowAux_ok t hlen hc t.values (List.replicate t.dimensions.length 0) hinit
  exact ⟨rs, by rw [hif, hrs], hlenr⟩

/-- C1 witness: the 2x3 table satisfies the hypotheses, and its visited index
sequence over the 6 cells is duplicate-free. -/
theorem C1_row_iterator_visits_every_combination_once_witness :
    (visitedIdx (c2Table.dimensions.map (fun d : Dimension => d.count))
      ((c2Table.dimensions.map (fun d : Dimension => d.count)).prod.toNat)).Nodup :=
  (C1_row_iterator_visits_every_combination_once c2Table (by decide) (by decide)).2.1

/-- C2: the concrete table with counts `[2,3]`, categories `a0,a1` / `b0,b1,b2`
and values `10..15` emits exactly the six expected rows in odometer order. -/
theorem C2_round_trip_2x3 :
    c2Table.forEachRow = .ok
      [ ⟨[⟨"a0", "a0"⟩, ⟨"b0", "b0"⟩], 10⟩
      , ⟨[⟨"a0", "a0"⟩, ⟨"b1", "b1"⟩], 11⟩
      , ⟨[⟨"a0", "a0"⟩, ⟨"b2", "b2"⟩], 12⟩
      , ⟨[⟨"a1", "a1"⟩, ⟨"b0", "b0"⟩], 13⟩
      , ⟨[⟨"a1", "a1"⟩, ⟨"b1", "b1"⟩], 14⟩
      , ⟨[⟨"a1", "a1"⟩, ⟨"b2", "b2"⟩], 15⟩ ] := by
  rfl

/-- C3 counterexample: with one binary dimension (product = 2), feeding one
value (one fewer) or three values (one more) completes cleanly with one emitted
row per value — no StructuralError is raised, contrary to the claim. -/
theorem C3_counterexample_mismatch_not_an_error :
    c3TableFewer.values.length = 1
    ∧ (c3TableFewer.dimensions.map (fun d : Dimension => d.count)).prod.toNat = 2
    ∧ c3TableFewer.forEachRow = .ok [⟨[⟨"x0", "x0"⟩], 10⟩]
    ∧ c3TableMore.values.length = 3
    ∧ (c3TableMore.dimensions.map (fun d : Dimension => d.count)).prod.toNat = 2
    ∧ c3TableMore.forEachRow = .ok
        [⟨[⟨"x0", "x0"⟩], 10⟩, ⟨[⟨"x1", "x1"⟩], 11⟩, ⟨[⟨"x0", "x0"⟩], 12⟩] :=
  ⟨rfl, rfl, rfl, rfl, rfl, rfl⟩

/-- C3 (amended): for a well-formed table, feeding exactly `product(counts)`
values completes cleanly; feeding one fewer or one more ALSO completes cleanly,
emitting one row per supplied value — the mismatch is silently tolerated by the
iterator rather than raising a StructuralError. -/
theorem C3_value_count_mismatch_silently_tolerated (t : Table)
    (herr : t.error = "")
    (hwf : ∀ d ∈ t.dimensions, d.count = (d.categories.length : Int) ∧ 1 ≤ d.count)
    (hnear : t.values.length + 1 = (t.dimensions.map (fun d : Dimension => d.count)).prod.toNat
      ∨ t.values.length = (t.dimensions.map (fun d : Dimension => d.count)).prod.toNat
      ∨ t.values.length = (t.dimensions.map (fun d : Dimension => d.count)).prod.toNat + 1) :
    ∃ rs, t.forEachRow = .ok rs ∧ rs.length = t.values.length :=
  forEachRow_ok_of_wf t herr (fun d hd => (hwf d hd).1) (fun d hd => (hwf d hd).2)

/-- C3 witness: the amended statement applied to the one-fewer table. -/
theorem C3_value_count_mismatch_silently_tolerated_witness :
    ∃ rs, c3TableFewer.forEachRow = .ok rs ∧ rs.length = c3TableFewer.values.length :=
  C3_value_count_mismatch_silently_tolerated c3TableFewer (by decide) (by decide)
    (by decide)

/-- C9: for a table with empty error whose dimensions all satisfy
`count == len(categories)` and `count ≥ 1`, `ForEachRow` invokes the callback
exactly once per element of `t.values` (even when that number differs from
`product(counts)`), and after `product(counts)` steps the odometer wraps back
to the all-zero index combination. -/
theorem C9_row_per_value_and_wraparound (t : Table)
    (herr : t.error = "")
    (hwf : ∀ d ∈ t.dimensions, d.count = (d.categories.length : Int) ∧ 1 ≤ d.count) :
    (∃ rs, t.forEachRow = .ok rs ∧ rs.length = t.values.length)
    ∧ odoIter (t.dimensions.map (fun d : Dimension => d.count))
        ((t.dimensions.map (fun d : Dimension => d.count)).prod.toNat)
      = List.replicate t.dimensions.length 0 := by
  constructor
  · exact forEachRow_ok_of_wf t herr (fun d hd => (hwf d hd).1) (fun d hd => (hwf d hd).2)
  · set cs := t.dimensions.map (fun d : Dimension => d.categories.length) with hcs
    have hcast : t.dimensions.map (fun d : Dimension => d.count)
        = cs.map (fun n : Nat => (n : Int)) := by
      rw [hcs, List.map_map]
      exact List.map_congr_left (fun d hd => (hwf d hd).1)
    have hpos : ∀ c ∈ cs, 1 ≤ c := by
      intro c hc
      rw [hcs] at hc
      obtain ⟨d, hd, rfl⟩ := List.mem_map.mp hc
      have h2 := (hwf d hd).2
      rw [(hwf d hd).1] at h2
      exact_mod_cast h2
    have hP : (t.dimensions.map (fun d : Dimension => d.count)).prod.toNat = cs.prod := by
      rw [hcast, castProd, Int.toNat_natCast]
    rw [hP, hcast, odoIter_eq_bigDigits cs hpos]
    have hrev : ∀ c ∈ cs.reverse, 1 ≤ c := fun c hc => hpos c (List.mem_reverse.mp hc)
    have hwrap : bigDigits cs cs.prod = List.replicate cs.length 0 := by
      rw [bigDigits, ← List.prod_reverse, digitsRev_prod cs.reverse hrev,
        List.length_reverse, List.reverse_replicate]
    rw [hwrap, List.map_replicate, hcs, List.length_map]
    simp

/-- C9 witness: applied to the concrete 2x3 table. -/
theorem C9_row_per_value_and_wraparound_witness :
    (∃ rs, c2Table.forEachRow = .ok rs ∧ rs.length = c2Table.values.length)
    ∧ odoIter (c2Table.dimensions.map (fun d : Dimension => d.count))
        ((c2Table.dimensions.map (fun d : Dimension => d.count)).prod.toNat)
      = List.replicate c2Table.dimensions.length 0 :=
  C9_row_per_value_and_wraparound c2Table (by decide) (by decide)

/-- C10: when every dimension satisfies `count == len(categories)` and either
the value list is empty or every count is ≥ 1, every category access during row
iteration is in bounds: the out-of-range panic branch is never taken and
iteration returns a row list. -/
theorem C10_category_accesses_in_bounds (t : Table)
    (herr : t.error = "")
    (hlen : ∀ d ∈ t.dimensions, d.count = (d.categories.length : Int))
    (hvals : t.values = [] ∨ ∀ d ∈ t.dimensions, 1 ≤ d.count) :
    ∃ rs, t.forEachRow = .ok rs := by
  cases hvals with
  | inl hv =>
    refine ⟨[], ?_⟩
    have hif : t.forEachRow
        = t.forEachRowAux (t.dimensions.map (fun d : Dimension => d.count))
            (List.replicate t.dimensions.length 0) t.values := by
      simp [Table.forEachRow, herr]
    rw [hif, hv]
    rfl
  | inr hv =>
    obtain ⟨rs, hrs, _⟩ := forEachRow_ok_of_wf t herr hlen hv
    exact ⟨rs, hrs⟩

/-- C10 witness: applied to a table with an empty dimension list but non-empty
values, and implicitly at the 2x3 table through the second disjunct. -/
theorem C10_category_accesses_in_bounds_witness :
    ∃ rs, c2Table.forEachRow = .ok rs :=
  C10_category_accesses_in_bounds c2Table (by decide) (by decide) (Or.inr (by decide))

/-! Behaviour of the top-level member loop around an `errors` member. -/

theorem processTop_append_isSome (L : List (String × JValue))
    (pre : List (String × JValue))
    (h : ∃ err, (processTop L).2 = some err) :
    ∃ err, (processTop (pre ++ L)).2 = some err := by
  induction pre with
  | nil => simpa using h
  | cons hd tl ih =>
    obtain ⟨n, v⟩ := hd
    obtain ⟨err2, herr2⟩ := ih
    by_cases hn : n = "data"
    · subst hn
      cases v with
      | null => exact ⟨err2, by simpa [processTop] using herr2⟩
      | obj dms =>
        cases hp : (decodeDataFields dms).2 with
        | some e2 => exact ⟨e2, by simp [processTop, hp]⟩
        | none => exact ⟨err2, by simp [processTop, hp, herr2]⟩
      | bool b => exact ⟨"object or null expected", by simp [processTop]⟩
      | num m => exact ⟨"object or null expected", by simp [processTop]⟩
      | str s => exact ⟨"object or null expected", by simp [processTop]⟩
      | arr xs => exact ⟨"object or null expected", by simp [processTop]⟩
    · by_cases he : n = "errors"
      · subst he
        cases hp : decodeErrorsPanicIfAny v with
        | some e2 => exact ⟨e2, by simp [processTop, hp]⟩
        | none => exact ⟨err2, by simpa [processTop, hp] using herr2⟩
      · exact ⟨err2, by simpa [processTop, hn, he] using herr2⟩

theorem processTop_append_nil_output (L : List (String × JValue))
    (pre : List (String × JValue))
    (hpre : ∀ nv ∈ pre, nv.1 ≠ "data")
    (h : (processTop L).1 = []) :
    (processTop (pre ++ L)).1 = [] := by
  induction pre with
  | nil => simpa using h
  | cons hd tl ih =>
    obtain ⟨n, v⟩ := hd
    have hn : n ≠ "data" := hpre (n, v) (List.mem_cons_self _ _)
    have htl : ∀ nv ∈ tl, nv.1 ≠ "data" := fun nv hnv => hpre nv (List.mem_cons_of_mem _ hnv)
    have ihh := ih htl
    by_cases he : n = "errors"
    · subst he
      cases hp : decodeErrorsPanicIfAny v with
      | some e2 => simp [processTop, hp]
      | none => simpa [processTop, hp] using ihh
    · simpa [processTop, hn, he] using ihh

/-- C4 (amended): a response whose top-level `errors` member decodes to
messages that join to a non-empty string (at least one non-empty message)
always aborts with a reported failure; when the `errors` member arrives first
it carries the joined messages; no data rows are produced provided no `data`
member precedes the `errors` member (if one does, its rows are flushed before
the failure); and an `errors` list whose messages are all empty, such as
`[{"message": ""}]`, is silently ignored — the builder stays empty and no
failure is reported. -/
theorem C4_nonempty_errors_always_abort (pre rest : List (String × JValue))
    (ev : JValue) (msgs : List String)
    (hdec : decodeGraphqlErrs ev = some msgs)
    (hjoin : 0 < (joinMsgs msgs).length) :
    (∃ err, (processTop (pre ++ ("errors", ev) :: rest)).2 = some err)
    ∧ ((∀ nv ∈ pre, nv.1 ≠ "data") →
        (processTop (pre ++ ("errors", ev) :: rest)).1 = [])
    ∧ (processTop (("errors", ev) :: rest)).2 = some (joinMsgs msgs)
    ∧ (processTop [("errors", JValue.arr [JValue.obj [("message", JValue.str "")]])]).2
        = none := by
  have hpanic : decodeErrorsPanicIfAny ev = some (joinMsgs msgs) := by
    simp [decodeErrorsPanicIfAny, hdec, hjoin]
  have hbase2 : (processTop (("errors", ev) :: rest)).2 = some (joinMsgs msgs) := by
    simp [processTop, hpanic]
  have hbase1 : (processTop (("errors", ev) :: rest)).1 = [] := by
    simp [processTop, hpanic]
  exact ⟨processTop_append_isSome _ pre ⟨joinMsgs msgs, hbase2⟩,
    fun hpre => processTop_append_nil_output _ pre hpre hbase1, hbase2, by rfl⟩

/-- C4 witness: a document whose only top-level member is a one-message
`errors` array aborts with that message and no output. -/
theorem C4_nonempty_errors_always_abort_witness :
    (∃ err, (processTop ([] ++ ("errors", JValue.arr [JValue.obj [("message", JValue.str "boom")]]) :: [])).2
        = some err)
    ∧ ((∀ nv ∈ ([] : List (String × JValue)), nv.1 ≠ "data") →
        (processTop ([] ++ ("errors", JValue.arr [JValue.obj [("message", JValue.str "boom")]]) :: [])).1 = [])
    ∧ (processTop (("errors", JValue.arr [JValue.obj [("message", JValue.str "boom")]]) :: [])).2
        = some (joinMsgs ["boom"])
    ∧ (processTop [("errors", JValue.arr [JValue.obj [("message", JValue.str "")]])]).2
        = none :=
  C4_nonempty_errors_always_abort [] [] (JValue.arr [JValue.obj [("message", JValue.str "boom")]])
    ["boom"] (by rfl) (by decide)

/-- C4 counterexample: when a `data` member carrying a decodable table precedes
the non-empty `errors` member, a data row IS produced before the failure —
contradicting order-independence of "produces no data rows". -/
theorem C4_counterexample_data_rows_before_errors :
    graphqlJSONToCSVModel (JValue.obj
      [ ("data", JValue.obj
          [ ("dataset", JValue.obj
              [ ("table", JValue.obj
                  [ ("dimensions", JValue.arr [])
                  , ("values", JValue.arr [JValue.num 10]) ]) ]) ])
      , ("errors", JValue.arr [JValue.obj [("message", JValue.str "boom")]]) ])
      = ([["count"], ["10"]], some "boom") := by
  rfl

/-! Behaviour of the table member loop around `error` and `values` members. -/

theorem processTable_clean_prefix (s : String) (rest : List (String × JValue)) :
    ∀ pre : List (String × JValue), ∀ dims₀ : Option (List Dimension),
      cleanPre dims₀ pre = true →
      processTable dims₀ (pre ++ ("error", JValue.str s) :: rest)
        = ([], some ("Table blocked: " ++ s)) := by
  intro pre
  induction pre with
  | nil =>
    intro dims₀ _
    simp [processTable, errorMemberOutcome]
  | cons hd tl ih =>
    intro dims₀ hclean
    obtain ⟨n, v⟩ := hd
    by_cases hn : n = "dimensions"
    · subst hn
      simp only [cleanPre, if_pos rfl] at hclean
      cases hds : decodeDims v with
      | none =>
        rw [hds] at hclean
        exact absurd hclean (by simp)
      | some ds =>
        rw [hds] at hclean
        simpa [processTable, hds] using ih ds hclean
    · by_cases he : n = "error"
      · subst he
        simp [cleanPre] at hclean
      · by_cases hv : n = "values"
        · subst hv
          have hclean2 : (dims₀.isSome = true ∧ isNull v = true) ∧ cleanPre dims₀ tl = true := by
            simpa [cleanPre, Bool.and_eq_true] using hclean
          obtain ⟨⟨hsome, hnull⟩, htl⟩ := hclean2
          obtain ⟨ds, rfl⟩ := Option.isSome_iff_exists.mp hsome
          cases v with
          | null => simpa [processTable, valuesMemberArr] using ih (some ds) htl
          | bool b => simp [isNull] at hnull
          | num m => simp [isNull] at hnull
          | str s2 => simp [isNull] at hnull
          | arr xs => simp [isNull] at hnull
          | obj ms => simp [isNull] at hnull
        · have hclean2 : cleanPre dims₀ tl = true := by
            simpa [cleanPre, hn, he, hv] using hclean
          simpa [processTable, hn, he, hv] using ih dims₀ hclean2

theorem processTable_values_first (v : JValue) (rest : List (String × JValue)) :
    ∀ pre : List (String × JValue),
      (∀ nv ∈ pre, nv.1 ≠ "dimensions") →
      ∃ e, processTable none (pre ++ ("values", v) :: rest) = ([], some e) := by
  intro pre
  induction pre with
  | nil =>
    refine fun _ => ⟨"values received before dimensions", ?_⟩
    simp [processTable]
  | cons hd tl ih =>
    intro hpre
    obtain ⟨n, w⟩ := hd
    have hn : n ≠ "dimensions" := hpre (n, w) (List.mem_cons_self _ _)
    have htl := fun nv hnv => hpre nv (List.mem_cons_of_mem _ hnv)
    obtain ⟨e2, he2⟩ := ih htl
    by_cases he : n = "error"
    · subst he
      cases hw : errorMemberOutcome w with
      | some e3 => exact ⟨e3, by simp [processTable, hw]⟩
      | none => exact ⟨e2, by simpa [processTable, hw] using he2⟩
    · by_cases hv : n = "values"
      · subst hv
        exact ⟨"values received before dimensions", by simp [processTable]⟩
      · exact ⟨e2, by simpa [processTable, hn, he, hv] using he2⟩

/-- C5 (amended): if the table's `error` member (a string) is preceded only by
clean members — decodable `dimensions` members, `values` members that are null
AND arrive after decoded dimensions (the server's shape for a blocked table),
and skipped unknown names — processing emits nothing, not even a header, and
fails with the server-supplied message `Table blocked: <msg>`.  A non-null
`values` member before `error` instead emits its header and rows first (see
the counterexample), and a `values` member before `dimensions` fails with
`values received before dimensions` rather than the blocked message. -/
theorem C5_error_before_values_blocks (pre rest : List (String × JValue)) (s : String)
    (hs : s ≠ "")
    (hpre : cleanPre none pre = true) :
    processTable none (pre ++ ("error", JValue.str s) :: rest)
      = ([], some ("Table blocked: " ++ s)) :=
  processTable_clean_prefix s rest pre none hpre

/-- C5 witness: the server shape for a blocked table — `dimensions`, then a
null `values`, then the error — yields no output and the blocked failure. -/
theorem C5_error_before_values_blocks_witness :
    processTable none
        ([("dimensions", JValue.arr []), ("values", JValue.null)]
          ++ ("error", JValue.str "blocked") :: [])
      = ([], some ("Table blocked: " ++ "blocked")) :=
  C5_error_before_values_blocks
    [("dimensions", JValue.arr []), ("values", JValue.null)] []
    "blocked" (by decide) (by decide)

/-- C5 counterexample: with a non-null `values` member arriving before the
`error` member, a header and a data row are written before the failure —
contradicting "no data rows and aborts before any value is iterated,
regardless of member order". -/
theorem C5_counterexample_values_rows_before_error :
    processTable none
        [ ("dimensions", JValue.arr [])
        , ("values", JValue.arr [JValue.num 7])
        , ("error", JValue.str "blocked") ]
      = ([["count"], ["7"]], some "Table blocked: blocked") := by
  rfl

/-- C7: if a `values` member is encountered in the table object before any
`dimensions` member, processing aborts with a fatal error and emits no row at
all (regardless of what follows). -/
theorem C7_values_before_dimensions_fatal (pre rest : List (String × JValue)) (v : JValue)
    (hpre : ∀ nv ∈ pre, nv.1 ≠ "dimensions") :
    ∃ e, processTable none (pre ++ ("values", v) :: rest) = ([], some e) :=
  processTable_values_first v rest pre hpre

/-- C7 witness: a skipped unknown member followed by `values` with no
`dimensions` read aborts with no output. -/
theorem C7_values_before_dimensions_fatal_witness :
    ∃ e, processTable none
        ([("foo", JValue.null)] ++ ("values", JValue.arr [JValue.num 1]) :: [])
      = ([], some e) :=
  C7_values_before_dimensions_fatal [("foo", JValue.null)] [] (JValue.arr [JValue.num 1])
    (by decide)

/-- C6 (amended): members with unrecognized names are skipped in the top-level
loop and in the table-object loop; but inside the `data` object (and likewise
the dataset object) the decoder demands the literal member `dataset` (resp.
`table`) first, and an unrecognized member there is a fatal error, not a skip. -/
theorem C6_unrecognized_members_mixed :
    (∀ (n : String) (v : JValue) (rest : List (String × JValue)),
        n ≠ "data" → n ≠ "errors" → processTop ((n, v) :: rest) = processTop rest)
    ∧ (∀ (n : String) (v : JValue) (rest : List (String × JValue))
          (dims : Option (List Dimension)),
        n ≠ "dimensions" → n ≠ "error" → n ≠ "values" →
          processTable dims ((n, v) :: rest) = processTable dims rest)
    ∧ (∀ (n : String) (v : JValue) (rest : List (String × JValue)),
        n ≠ "dataset" →
          decodeDataFields ((n, v) :: rest)
            = ([], some ("Expected \"dataset\" but got \"" ++ n ++ "\""))) := by
  refine ⟨?_, ?_, ?_⟩
  · intro n v rest hn he
    simp [processTop, hn, he]
  · intro n v rest dims hn he hv
    simp [processTable, hn, he, hv]
  · intro n v rest hn
    simp [decodeDataFields, hn]

/-- C6 witness: an unknown member `x` is skipped at the top and table levels but
rejected inside `data`. -/
theorem C6_unrecognized_members_mixed_witness :
    processTop [("x", JValue.null)] = processTop []
    ∧ processTable none [("x", JValue.null)] = processTable none []
    ∧ decodeDataFields [("x", JValue.null)]
        = ([], some ("Expected \"dataset\" but got \"" ++ "x" ++ "\"")) :=
  ⟨C6_unrecognized_members_mixed.1 "x" JValue.null [] (by decide) (by decide),
   C6_unrecognized_members_mixed.2.1 "x" JValue.null [] none
     (by decide) (by decide) (by decide),
   C6_unrecognized_members_mixed.2.2 "x" JValue.null [] (by decide)⟩

/-- C6 counterexample: a single unrecognized member inside the `data` object is
by itself a fatal error — `mustMatchName` panics — contradicting "skipped at
every level, never by itself an error". -/
theorem C6_counterexample_unknown_member_inside_data :
    decodeDataFields [("extra", JValue.null)]
      = ([], some "Expected \"dataset\" but got \"extra\"") := by
  rfl

/-! Record widths for the streamed CSV output. -/

theorem stepRev_length :
    ∀ cs ks : List Int, ks.length = cs.length → (stepRev cs ks).length = ks.length := by
  intro cs
  induction cs with
  | nil =>
    intro ks h
    cases ks with
    | nil => rfl
    | cons k ks2 => simp at h
  | cons c cs ih =>
    intro ks h
    cases ks with
    | nil => simp at h
    | cons k ks2 =>
      simp only [List.length_cons] at h
      by_cases hlt : k + 1 < c
      · simp [stepRev, hlt]
      · simp [stepRev, hlt, ih ks2 (by omega)]

theorem odometerStep_length (counts idxs : List Int) (h : idxs.length = counts.length) :
    (odometerStep counts idxs).length = idxs.length := by
  simp [odometerStep, stepRev_length counts.reverse idxs.reverse (by simp [h])]

theorem traverseCats_length :
    ∀ (ds : List Dimension) (ks : List Int) (cats : List Category),
      traverseCats ds ks = some cats → cats.length = ks.length := by
  intro ds
  induction ds with
  | nil =>
    intro ks cats h
    cases ks with
    | nil =>
      simp [traverseCats] at h
      simp [← h]
    | cons k ks2 => simp [traverseCats] at h
  | cons d ds ih =>
    intro ks cats h
    cases ks with
    | nil =>
      simp [traverseCats] at h
      simp [← h]
    | cons k ks2 =>
      cases hg : getCat d k with
      | none => simp [traverseCats, hg] at h
      | some c0 =>
        cases ht : traverseCats ds ks2 with
        | none => simp [traverseCats, hg, ht] at h
        | some cs0 =>
          simp only [traverseCats, hg, ht, Option.some.injEq] at h
          rw [← h]
          simp [ih ks2 cs0 ht]

theorem valuesLoop_row_lengths (dims : List Dimension) :
    ∀ (vs : List JValue) (idxs : List Int), idxs.length = dims.length →
      ∀ r ∈ (valuesLoop dims idxs vs).1, r.length = dims.length + 1 := by
  intro vs
  induction vs with
  | nil =>
    intro idxs _ r hr
    simp [valuesLoop] at hr
  | cons v vs ih =>
    intro idxs hlen r hr
    cases hrl : rowLabels dims idxs with
    | none => simp [valuesLoop, hrl] at hr
    | some labels =>
      cases hnum : decodeNumber v with
      | none => simp [valuesLoop, hrl, hnum] at hr
      | some m =>
        simp only [valuesLoop, hrl, hnum] at hr
        rcases List.mem_cons.mp hr with hr1 | hr2
        · obtain ⟨cats, hcats, hl⟩ := Option.map_eq_some'.mp (by simpa [rowLabels] using hrl)
          have hcl : cats.length = idxs.length := traverseCats_length dims idxs cats hcats
          rw [hr1, List.length_append, ← hl]
          simp [hcl, hlen]
        · have hol : (odometerStep (dims.map (fun d : Dimension => d.count)) idxs).length
              = idxs.length :=
            odometerStep_length _ _ (by simp [hlen])
          exact ih _ (by rw [hol, hlen]) r hr2

/-- C8: every table that reaches row emission writes the header first — the
variable labels in dimension order followed by the literal `"count"` — and
every subsequent data row has exactly `len(dimensions) + 1` fields; the
in-memory client's `Table.Header` builds the same header. -/
theorem C8_header_first_then_fixed_width_rows
    (dims : List Dimension) (vs : List JValue) (t : Table) :
    (∃ dataRows err,
        decodeValuesM dims vs
          = ((dims.map (fun d : Dimension => d.«variable».label) ++ ["count"]) :: dataRows, err)
        ∧ ∀ r ∈ dataRows, r.length = dims.length + 1)
    ∧ t.header = t.dimensions.map (fun d : Dimension => d.«variable».label) ++ ["count"] := by
  constructor
  · refine ⟨(valuesLoop dims (List.replicate dims.length 0) vs).1,
      (valuesLoop dims (List.replicate dims.length 0) vs).2, ?_, ?_⟩
    · simp [decodeValuesM]
    · intro r hr
      exact valuesLoop_row_lengths dims vs (List.replicate dims.length 0) (by simp) r hr
  · rfl

/-- C8 witness: instantiated at the empty dimension list and the 2x3 table. -/
theorem C8_header_first_then_fixed_width_rows_witness :
    (∃ dataRows err,
        decodeValuesM [] []
          = ((([] : List Dimension).map (fun d : Dimension => d.«variable».label)
              ++ ["count"]) :: dataRows, err)
        ∧ ∀ r ∈ dataRows, r.length = ([] : List Dimension).length + 1)
    ∧ c2Table.header
        = c2Table.dimensions.map (fun d : Dimension => d.«variable».label) ++ ["count"] :=
  C8_header_first_then_fixed_width_rows [] [] c2Table
